import Mathlib

/-!
# Verification of Reverb's item selectors, error helpers and client layers

A shallow embedding of the relevant parts of the Reverb replay-buffer
implementation, together with theorems checking the natural-language
specification against it:

* `reverb/cc/selectors/uniform.cc` (`UniformSelector`)
* `reverb/cc/selectors/lifo.cc` (`LifoSelector`)
* `reverb/cc/selectors/fifo.h` (`FifoSelector`, implementation modelled
  from the spec, the `.cc` file is not available)
* `reverb/cc/selectors/heap.cc` (`HeapSelector`; the intrusive-heap
  comparator lives in the unavailable `heap.h` and is modelled from the
  spec)
* `reverb/cc/errors.cc` (`RateLimiterTimeout` / `IsRateLimiterTimeout`)
* `reverb/cc/ops/dataset.cc` (`GetNextInternal` status handling)
* `reverb/cc/writer.cc` (chunk retransmission and retry policy, modelled
  from the spec; only the test file is available)
* `reverb/pybind.cc` (`WeakCellRef` accessors)

C++ `double` priorities and probabilities are modelled as `ℚ`: the
operations the embedded code performs on them (comparison, negation,
`1 / n`) are exact order-preserving operations, so the rational model is
faithful for the properties proved here.  Hash maps are modelled as
association lists with map-ADT semantics (`mlookup`, first entry wins).
Sampling randomness is abstracted by passing the drawn index as an
argument.
-/

namespace Reverb

/-- 64-bit item/chunk keys (`ItemSelector::Key`); arithmetic is never
performed on them so `Nat` is a faithful model. -/
abbrev Key := Nat

/-- The absl status codes used by the embedded code. -/
inductive StatusCode where
  | ok
  | cancelled
  | invalidArgument
  | notFound
  | failedPrecondition
  | deadlineExceeded
  | resourceExhausted
  | unavailable
  | aborted
  | internalError
  deriving DecidableEq, Repr

/-- `absl::Status`: a code plus a message string. -/
structure Status where
  code : StatusCode
  message : String
  deriving DecidableEq, Repr

/-- `absl::OkStatus()` -/
def okStatus : Status := ⟨.ok, ""⟩

/-- `absl::InvalidArgumentError(msg)` -/
def invalidArgumentError (msg : String) : Status := ⟨.invalidArgument, msg⟩

/-- `ItemSelector::KeyWithProbability` -/
structure KeyWithProbability where
  key : Key
  probability : ℚ
  deriving DecidableEq, Repr

/-! ## Association-list model of `internal::flat_hash_map` -/

/-- Lookup in an association list (`find` on a hash map keyed by `Key`). -/
def mlookup {β : Type} : List (Key × β) → Key → Option β
  | [], _ => none
  | (k', v) :: m, k => if k = k' then some v else mlookup m k

/-- Remove every entry with the given key (`erase` on a hash map). -/
def merase {β : Type} : List (Key × β) → Key → List (Key × β)
  | [], _ => []
  | (k', v) :: m, k => if k' = k then merase m k else (k', v) :: merase m k

/-- `map[k] = v`: insert-or-assign on a hash map. -/
def mset {β : Type} (m : List (Key × β)) (k : Key) (v : β) : List (Key × β) :=
  (k, v) :: merase m k

@[simp] theorem mlookup_nil {β : Type} (k : Key) : mlookup ([] : List (Key × β)) k = none := rfl

@[simp] theorem mlookup_cons {β : Type} (k' : Key) (v : β) (m : List (Key × β)) (k : Key) :
    mlookup ((k', v) :: m) k = if k = k' then some v else mlookup m k := rfl

theorem mlookup_merase {β : Type} (m : List (Key × β)) (k k' : Key) :
    mlookup (merase m k) k' = if k' = k then none else mlookup m k' := by
  induction m with
  | nil => simp [merase]
  | cons p m ih =>
    obtain ⟨a, v⟩ := p
    simp only [merase]
    by_cases hak : a = k
    · subst hak
      rw [if_pos rfl, ih]
      by_cases hk' : k' = a <;> simp [hk']
    · rw [if_neg hak, mlookup_cons, mlookup_cons, ih]
      by_cases hk'a : k' = a
      · subst hk'a
        simp [hak]
      · simp [hk'a]

theorem mlookup_mset {β : Type} (m : List (Key × β)) (k k' : Key) (v : β) :
    mlookup (mset m k v) k' = if k' = k then some v else mlookup m k' := by
  by_cases h : k' = k <;> simp [mset, mlookup_merase, h]

theorem contains_iff_mem (l : List Key) (k : Key) : l.contains k = true ↔ k ∈ l :=
  List.elem_iff

/-! ## UniformSelector (`reverb/cc/selectors/uniform.cc`)

State: dense vector `keys_` plus hash map `key_to_index_`.  The
`absl::BitGen` is abstracted away; `Sample` instead receives the index
drawn by `absl::Uniform<size_t>(bit_gen_, 0, keys_.size())` as an
argument. -/

structure UniformSelector where
  keys : List Key
  key_to_index : List (Key × Nat)
  deriving DecidableEq, Repr

namespace UniformSelector

/-- The freshly-constructed selector. -/
def init : UniformSelector := ⟨[], []⟩

/-- `UniformSelector::Delete` -/
def Delete (s : UniformSelector) (key : Key) : Status × UniformSelector :=
  match mlookup s.key_to_index key with
  | none => (invalidArgumentError ("Key " ++ toString key ++ " not found."), s)
  | some index =>
    let m := merase s.key_to_index key
    let last_index := s.keys.length - 1
    let last_key := s.keys.getLastD 0
    if index ≠ last_index then
      (okStatus, ⟨(s.keys.set index last_key).dropLast, mset m last_key index⟩)
    else
      (okStatus, ⟨s.keys.dropLast, m⟩)

/-- `UniformSelector::Insert`.  The duplicate test is `emplace(...).second`,
which inserts only when the key is absent; `priority` is ignored. -/
def Insert (s : UniformSelector) (key : Key) (priority : ℚ) : Status × UniformSelector :=
  let index := s.keys.length
  if (mlookup s.key_to_index key).isSome then
    (invalidArgumentError ("Key " ++ toString key ++ " already inserted."), s)
  else
    (okStatus, ⟨s.keys ++ [key], (key, index) :: s.key_to_index⟩)

/-- `UniformSelector::Update`: only a membership check, no state change. -/
def Update (s : UniformSelector) (key : Key) (priority : ℚ) : Status × UniformSelector :=
  if (mlookup s.key_to_index key).isNone then
    (invalidArgumentError ("Key " ++ toString key ++ " not found."), s)
  else
    (okStatus, s)

/-- `UniformSelector::Sample`: `REVERB_CHECK(!keys_.empty())` then a
uniformly drawn index.  The failed check is modelled as `none`; `i` is the
drawn index. -/
def Sample (s : UniformSelector) (i : Nat) : Option KeyWithProbability :=
  if s.keys.isEmpty then none
  else some ⟨s.keys.getD i 0, 1 / (s.keys.length : ℚ)⟩

/-- `UniformSelector::Clear` -/
def Clear (s : UniformSelector) : UniformSelector := ⟨[], []⟩

/-- States reachable from the freshly-constructed selector by any sequence
of operations. -/
inductive Reach : UniformSelector → Prop
  | init : Reach init
  | insert {s k p} : Reach s → Reach (Insert s k p).2
  | delete {s k} : Reach s → Reach (Delete s k).2
  | update {s k p} : Reach s → Reach (Update s k p).2
  | clear {s} : Reach s → Reach (Clear s)

/-- Representation invariant: `key_to_index_` is exactly the
index-of-key map of the `keys_` vector. -/
def Inv (s : UniformSelector) : Prop :=
  ∀ k i, mlookup s.key_to_index k = some i ↔ s.keys[i]? = some k

theorem Inv.nodup {s : UniformSelector} (h : Inv s) : s.keys.Nodup := by
  rw [List.nodup_iff_injective_get]
  intro ⟨i, hi⟩ ⟨j, hj⟩ hij
  simp only [List.get_eq_getElem] at hij
  have h1 : s.keys[i]? = some (s.keys.get ⟨j, hj⟩) := by
    rw [List.getElem?_eq_getElem hi]
    simpa using congrArg some hij
  have h2 : s.keys[j]? = some (s.keys.get ⟨j, hj⟩) := by
    rw [List.getElem?_eq_getElem hj]
    simp
  have e1 := (h _ _).2 h1
  have e2 := (h _ _).2 h2
  exact Fin.ext (Option.some.inj (e1.symm.trans e2))

theorem Inv.mem_iff {s : UniformSelector} (h : Inv s) (k : Key) :
    (mlookup s.key_to_index k).isSome ↔ k ∈ s.keys := by
  constructor
  · intro hs
    obtain ⟨i, hi⟩ := Option.isSome_iff_exists.1 hs
    exact List.getElem?_mem ((h k i).1 hi)
  · intro hk
    obtain ⟨i, hi, hget⟩ := List.mem_iff_getElem.1 hk
    have hsome : s.keys[i]? = some k := by
      rw [List.getElem?_eq_getElem hi, hget]
    rw [Option.isSome_iff_exists]
    exact ⟨i, (h k i).2 hsome⟩

theorem Inv.init : Inv init := by
  intro k i
  show mlookup [] k = some i ↔ ([] : List Key)[i]? = some k
  simp [mlookup]

theorem Inv.update {s : UniformSelector} (h : Inv s) (k : Key) (p : ℚ) :
    Inv (Update s k p).2 := by
  unfold Update
  split <;> exact h

theorem Inv.clear (s : UniformSelector) : Inv (Clear s) := by
  intro k i
  simp [Clear, mlookup]

theorem Inv.insert {s : UniformSelector} (h : Inv s) (k : Key) (p : ℚ) :
    Inv (Insert s k p).2 := by
  cases hm : mlookup s.key_to_index k with
  | some j => simpa [Insert, hm] using h
  | none =>
    have hk_not_mem : k ∉ s.keys := by
      intro hmem
      have := (h.mem_iff k).2 hmem
      rw [hm] at this
      simp at this
    simp only [Insert, hm, Option.isSome_none, Bool.false_eq_true, if_false]
    intro k' i
    dsimp only
    rw [mlookup_cons]
    by_cases hk' : k' = k
    · subst hk'
      rw [if_pos rfl]
      constructor
      · intro hsi
        obtain rfl := Option.some.inj hsi
        exact List.getElem?_concat_length s.keys k'
      · intro hgi
        rcases Nat.lt_trichotomy i s.keys.length with hlt | heq | hgt
        · rw [List.getElem?_append_left hlt] at hgi
          exact absurd (List.getElem?_mem hgi) hk_not_mem
        · subst heq
          rfl
        · rw [List.getElem?_eq_none (by simp; omega)] at hgi
          cases hgi
    · rw [if_neg hk']
      constructor
      · intro hl
        have hgi := (h k' i).1 hl
        have hlt : i < s.keys.length := by
          rcases List.getElem?_eq_some_iff.1 hgi with ⟨hl', _⟩
          exact hl'
        rw [List.getElem?_append_left hlt]
        exact hgi
      · intro hgi
        rcases Nat.lt_trichotomy i s.keys.length with hlt | heq | hgt
        · rw [List.getElem?_append_left hlt] at hgi
          exact (h k' i).2 hgi
        · subst heq
          rw [List.getElem?_concat_length] at hgi
          exact absurd (Option.some.inj hgi).symm hk'
        · rw [List.getElem?_eq_none (by simp; omega)] at hgi
          cases hgi

theorem Inv.delete {s : UniformSelector} (h : Inv s) (key : Key) :
    Inv (Delete s key).2 := by
  cases hm : mlookup s.key_to_index key with
  | none => simpa [Delete, hm] using h
  | some index =>
    have hidx : s.keys[index]? = some key := (h key index).1 hm
    have hlt : index < s.keys.length := by
      rcases List.getElem?_eq_some_iff.1 hidx with ⟨hl', _⟩
      exact hl'
    have hlen : 0 < s.keys.length := Nat.lt_of_le_of_lt (Nat.zero_le _) hlt
    have hlast : s.keys[s.keys.length - 1]? = some (s.keys.getLastD 0) := by
      rw [List.getLastD_eq_getLast?, List.getLast?_eq_getElem?]
      cases hx : s.keys[s.keys.length - 1]? with
      | none =>
        rw [List.getElem?_eq_none_iff] at hx
        omega
      | some x => rfl
    have hmlast : mlookup s.key_to_index (s.keys.getLastD 0) = some (s.keys.length - 1) :=
      (h _ _).2 hlast
    by_cases hne : index = s.keys.length - 1
    · -- deleting the last slot: no swap happens
      subst hne
      have hkey_last : s.keys.getLastD 0 = key := by
        have := hlast.symm.trans hidx
        exact Option.some.inj this
      simp only [Delete, hm, ne_eq, not_true_eq_false, if_false, reduceIte]
      intro k' i
      dsimp only
      rw [mlookup_merase, List.getElem?_dropLast]
      by_cases hk' : k' = key
      · subst hk'
        rw [if_pos rfl]
        constructor
        · intro hc
          cases hc
        · intro hgi
          split at hgi
          · have := (h k' i).2 hgi
            rw [hm] at this
            have : s.keys.length - 1 = i := Option.some.inj this
            omega
          · cases hgi
      · rw [if_neg hk']
        constructor
        · intro hl
          have hgi := (h k' i).1 hl
          have hi_lt : i < s.keys.length := by
            rcases List.getElem?_eq_some_iff.1 hgi with ⟨hl', _⟩
            exact hl'
          have hi_ne : i ≠ s.keys.length - 1 := by
            intro hie
            rw [hie] at hgi
            exact hk' (Option.some.inj (hgi.symm.trans hidx))
          rw [if_pos (by omega)]
          exact hgi
        · intro hgi
          split at hgi
          · exact (h k' i).2 hgi
          · cases hgi
    · -- swap-with-last then pop
      have hkey_ne_last : key ≠ s.keys.getLastD 0 := by
        intro hke
        rw [← hke] at hmlast
        have := hmlast.symm.trans hm
        have := Option.some.inj this
        omega
      have hidx_lt : index < s.keys.length - 1 := by omega
      simp only [Delete, hm, ne_eq, hne, not_false_eq_true, if_true, reduceIte]
      intro k' i
      dsimp only
      rw [mlookup_mset, mlookup_merase, List.getElem?_dropLast, List.length_set]
      by_cases hk'lk : k' = s.keys.getLastD 0
      · subst hk'lk
        rw [if_pos rfl]
        constructor
        · intro hsi
          obtain rfl := Option.some.inj hsi
          rw [if_pos hidx_lt, List.getElem?_set, if_pos rfl, if_pos hlt]
        · intro hgi
          split at hgi
          · rw [List.getElem?_set] at hgi
            by_cases hii : index = i
            · exact congrArg some hii
            · rw [if_neg hii] at hgi
              have := (h _ i).2 hgi
              rw [hmlast] at this
              have : s.keys.length - 1 = i := Option.some.inj this
              omega
          · cases hgi
      · by_cases hk'key : k' = key
        · subst hk'key
          rw [if_neg hk'lk, if_pos rfl]
          constructor
          · intro hc
            cases hc
          · intro hgi
            split at hgi
            · rw [List.getElem?_set] at hgi
              by_cases hii : index = i
              · rw [if_pos hii, if_pos (by omega)] at hgi
                exact ((hk'lk (Option.some.inj hgi).symm)).elim
              · rw [if_neg hii] at hgi
                have := (h _ i).2 hgi
                rw [hm] at this
                exact (hii (Option.some.inj this)).elim
            · cases hgi
        · rw [if_neg hk'lk, if_neg hk'key]
          constructor
          · intro hl
            have hgi := (h k' i).1 hl
            have hi_lt : i < s.keys.length := by
              rcases List.getElem?_eq_some_iff.1 hgi with ⟨hl', _⟩
              exact hl'
            have hi_ne_idx : index ≠ i := by
              intro hie
              rw [← hie] at hgi
              exact hk'key (Option.some.inj (hgi.symm.trans hidx))
            have hi_ne_last : i ≠ s.keys.length - 1 := by
              intro hie
              rw [hie] at hgi
              exact hk'lk (Option.some.inj (hgi.symm.trans hlast))
            rw [if_pos (by omega), List.getElem?_set, if_neg hi_ne_idx]
            exact hgi
          · intro hgi
            split at hgi
            · rw [List.getElem?_set] at hgi
              by_cases hii : index = i
              · rw [if_pos hii, if_pos (by omega)] at hgi
                exact absurd (Option.some.inj hgi).symm hk'lk
              · rw [if_neg hii] at hgi
                exact (h k' i).2 hgi
            · cases hgi

/-- Every reachable `UniformSelector` state satisfies the representation
invariant. -/
theorem uniform_reach_inv {s : UniformSelector} (h : Reach s) : Inv s := by
  induction h with
  | init => exact Inv.init
  | insert _ ih => exact ih.insert _ _
  | delete _ ih => exact ih.delete _
  | update _ ih => exact ih.update _ _
  | clear _ ih => exact Inv.clear _

end UniformSelector

/-! ## LifoSelector (`reverb/cc/selectors/lifo.cc`)

State: `std::list<Key> keys_` (front = most recently inserted) plus
`key_to_iterator_`.  Since the map's values are iterators into `keys_`
(each key occurs at most once in `keys_`), the map is modelled by its
domain and `keys_.erase(it->second)` by erasing the unique occurrence of
the key. -/

structure LifoSelector where
  keys : List Key
  key_to_iterator : List Key
  deriving DecidableEq, Repr

namespace LifoSelector

/-- The freshly-constructed selector. -/
def init : LifoSelector := ⟨[], []⟩

/-- `LifoSelector::Delete` -/
def Delete (s : LifoSelector) (key : Key) : Status × LifoSelector :=
  if s.key_to_iterator.contains key then
    (okStatus, ⟨s.keys.erase key, s.key_to_iterator.erase key⟩)
  else
    (invalidArgumentError ("Key " ++ toString key ++ " not found."), s)

/-- `LifoSelector::Insert`: `keys_.emplace(keys_.begin(), key)` puts the
new key at the front; `priority` is ignored. -/
def Insert (s : LifoSelector) (key : Key) (priority : ℚ) : Status × LifoSelector :=
  if s.key_to_iterator.contains key then
    (invalidArgumentError ("Key " ++ toString key ++ " already inserted."), s)
  else
    (okStatus, ⟨key :: s.keys, key :: s.key_to_iterator⟩)

/-- `LifoSelector::Update`: only a membership check, no state change. -/
def Update (s : LifoSelector) (key : Key) (priority : ℚ) : Status × LifoSelector :=
  if s.key_to_iterator.contains key then
    (okStatus, s)
  else
    (invalidArgumentError ("Key " ++ toString key ++ " not found."), s)

/-- `LifoSelector::Sample`: `REVERB_CHECK(!keys_.empty())`, then
`{keys_.front(), 1.}`.  The failed check is modelled as `none`.  The C++
method only reads `keys_`, which the embedding reflects by being a pure
function of the state. -/
def Sample (s : LifoSelector) : Option KeyWithProbability :=
  match s.keys with
  | [] => none
  | k :: _ => some ⟨k, 1⟩

/-- `LifoSelector::Clear` -/
def Clear (s : LifoSelector) : LifoSelector := ⟨[], []⟩

/-- Implementation states coupled with the ghost insertion history: the
second index lists the keys currently present, ordered by their (latest)
insertion, earliest first. -/
inductive Trace : LifoSelector → List Key → Prop
  | init : Trace init []
  | insert {s h k p} : Trace s h →
      Trace (Insert s k p).2 (if (Insert s k p).1.code = .ok then h ++ [k] else h)
  | delete {s h k} : Trace s h →
      Trace (Delete s k).2 (if (Delete s k).1.code = .ok then h.erase k else h)
  | update {s h k p} : Trace s h → Trace (Update s k p).2 h
  | clear {s h} : Trace s h → Trace (Clear s) []

/-- Invariant carried by every trace: `keys_` is the reversed insertion
history, the map's domain coincides with `keys_` (in the model both lists
receive identical updates, so they are equal), and the history has no
duplicates. -/
theorem lifo_trace_inv {s : LifoSelector} {h : List Key} (t : Trace s h) :
    s.keys = h.reverse ∧ s.key_to_iterator = s.keys ∧ h.Nodup := by
  induction t with
  | init => exact ⟨rfl, rfl, List.nodup_nil⟩
  | @insert s h k p _ ih =>
    obtain ⟨hk, hdom, hnd⟩ := ih
    cases hc : s.key_to_iterator.contains k with
    | true =>
      simp only [Insert, hc, reduceIte, invalidArgumentError]
      exact ⟨hk, hdom, hnd⟩
    | false =>
      have hkmem : k ∉ h := by
        intro hm
        have : s.key_to_iterator.contains k = true := by
          rw [hdom, hk]
          exact (contains_iff_mem _ _).2 (List.mem_reverse.2 hm)
        rw [hc] at this
        cases this
      simp only [Insert, hc, Bool.false_eq_true, if_false, okStatus, reduceIte]
      refine ⟨?_, by rw [hdom], ?_⟩
      · simp [hk]
      · simp only [List.nodup_append, List.nodup_singleton, hnd, true_and]
        intro a ha hb
        simp only [List.mem_singleton] at hb
        subst hb
        exact hkmem ha
  | @delete s h k _ ih =>
    obtain ⟨hk, hdom, hnd⟩ := ih
    cases hc : s.key_to_iterator.contains k with
    | true =>
      simp only [Delete, hc, reduceIte, okStatus]
      refine ⟨?_, by rw [hdom], hnd.erase k⟩
      rw [hk, ((List.nodup_reverse.2 hnd).erase_eq_filter k), (hnd.erase_eq_filter k),
        List.filter_reverse]
    | false =>
      simp only [Delete, hc, Bool.false_eq_true, if_false, invalidArgumentError]
      exact ⟨hk, hdom, hnd⟩
  | update s ih =>
    obtain ⟨hk, hdom, hnd⟩ := ih
    unfold Update
    split <;> exact ⟨hk, hdom, hnd⟩
  | clear => exact ⟨rfl, rfl, List.nodup_nil⟩

end LifoSelector

/-! ## FifoSelector (`reverb/cc/selectors/fifo.h`)

Only the header is available.  Modelled from the spec: "FIFO / LIFO:
doubly linked list plus key→iterator; Sample returns front" and the
header documentation "Sample() always returns the key that was inserted
first until this key is deleted", so Insert appends at the back of the
list and Sample returns the front.  Error behaviour follows the common
selector contract (duplicate Insert / unknown Delete/Update fail
`InvalidArgument`). -/

structure FifoSelector where
  keys : List Key
  key_to_iterator : List Key
  deriving DecidableEq, Repr

namespace FifoSelector

/-- The freshly-constructed selector. -/
def init : FifoSelector := ⟨[], []⟩

/-- Modelled from the spec: `FifoSelector::Delete` erases the key's list
entry via its iterator and removes it from the map. -/
def Delete (s : FifoSelector) (key : Key) : Status × FifoSelector :=
  if s.key_to_iterator.contains key then
    (okStatus, ⟨s.keys.erase key, s.key_to_iterator.erase key⟩)
  else
    (invalidArgumentError ("Key " ++ toString key ++ " not found."), s)

/-- Modelled from the spec: `FifoSelector::Insert` appends the new key at
the back of the list; the priority is ignored. -/
def Insert (s : FifoSelector) (key : Key) (priority : ℚ) : Status × FifoSelector :=
  if s.key_to_iterator.contains key then
    (invalidArgumentError ("Key " ++ toString key ++ " already inserted."), s)
  else
    (okStatus, ⟨s.keys ++ [key], key :: s.key_to_iterator⟩)

/-- Modelled from the spec: `FifoSelector::Update` is a no-op that fails
on an unknown key. -/
def Update (s : FifoSelector) (key : Key) (priority : ℚ) : Status × FifoSelector :=
  if s.key_to_iterator.contains key then
    (okStatus, s)
  else
    (invalidArgumentError ("Key " ++ toString key ++ " not found."), s)

/-- Modelled from the spec: `FifoSelector::Sample` checks non-emptiness
and returns `{keys_.front(), 1.}`. -/
def Sample (s : FifoSelector) : Option KeyWithProbability :=
  match s.keys with
  | [] => none
  | k :: _ => some ⟨k, 1⟩

/-- `FifoSelector::Clear` -/
def Clear (s : FifoSelector) : FifoSelector := ⟨[], []⟩

/-- Implementation states coupled with the ghost insertion history
(present keys ordered by insertion, earliest first). -/
inductive Trace : FifoSelector → List Key → Prop
  | init : Trace init []
  | insert {s h k p} : Trace s h →
      Trace (Insert s k p).2 (if (Insert s k p).1.code = .ok then h ++ [k] else h)
  | delete {s h k} : Trace s h →
      Trace (Delete s k).2 (if (Delete s k).1.code = .ok then h.erase k else h)
  | update {s h k p} : Trace s h → Trace (Update s k p).2 h
  | clear {s h} : Trace s h → Trace (Clear s) []

/-- Trace invariant: `keys_` equals the insertion history (earliest
first), the map's domain is the key set (as a permutation), and the
history has no duplicates. -/
theorem fifo_trace_inv {s : FifoSelector} {h : List Key} (t : Trace s h) :
    s.keys = h ∧ s.key_to_iterator.Perm s.keys ∧ h.Nodup := by
  induction t with
  | init => exact ⟨rfl, List.Perm.refl _, List.nodup_nil⟩
  | @insert s h k p _ ih =>
    obtain ⟨hk, hdom, hnd⟩ := ih
    cases hc : s.key_to_iterator.contains k with
    | true =>
      simp only [Insert, hc, reduceIte, invalidArgumentError]
      exact ⟨hk, hdom, hnd⟩
    | false =>
      have hkmem : k ∉ h := by
        intro hm
        have : s.key_to_iterator.contains k = true := by
          rw [contains_iff_mem, hdom.mem_iff, hk]
          exact hm
        rw [hc] at this
        cases this
      simp only [Insert, hc, Bool.false_eq_true, if_false, okStatus, reduceIte]
      refine ⟨by rw [hk], ?_, ?_⟩
      · exact ((hdom.cons k).trans (List.perm_append_singleton k s.keys).symm)
      · simp only [List.nodup_append, List.nodup_singleton, hnd, true_and]
        intro a ha hb
        simp only [List.mem_singleton] at hb
        subst hb
        exact hkmem ha
  | @delete s h k _ ih =>
    obtain ⟨hk, hdom, hnd⟩ := ih
    cases hc : s.key_to_iterator.contains k with
    | true =>
      simp only [Delete, hc, reduceIte, okStatus]
      exact ⟨by rw [hk], hdom.erase k, hnd.erase k⟩
    | false =>
      simp only [Delete, hc, Bool.false_eq_true, if_false, invalidArgumentError]
      exact ⟨hk, hdom, hnd⟩
  | update s ih =>
    obtain ⟨hk, hdom, hnd⟩ := ih
    unfold Update
    split <;> exact ⟨hk, hdom, hnd⟩
  | clear => exact ⟨rfl, List.Perm.refl _, List.nodup_nil⟩

end FifoSelector

/-! ## HeapSelector (`reverb/cc/selectors/heap.cc`)

`nodes_` is a hash map `key → unique_ptr<HeapNode>` and `heap_` an
intrusive heap over the same nodes.  Both are modelled by one list of
nodes; the list order is immaterial (a hash map has none) and the heap
structure is abstracted by its contents, with the root computed as the
least node under the comparator.  In-place node mutation (`Update`) is
represented as remove-then-append of the updated node, which is the same
multiset of nodes. -/

structure HeapNode where
  key : Key
  /-- `priority * sign_` as stored by the C++ constructor. -/
  priority : ℚ
  update_number : Nat
  deriving DecidableEq, Repr

structure HeapSelector where
  /-- `sign_`: 1 for a min-heap, -1 for a max-heap. -/
  sign : ℚ
  /-- `update_count_`: monotonically increasing counter. -/
  update_count : Nat
  nodes : List HeapNode
  deriving DecidableEq, Repr

namespace HeapSelector

/-- `HeapSelector::HeapSelector(bool min_heap)` -/
def init (min_heap : Bool) : HeapSelector :=
  ⟨if min_heap then 1 else -1, 0, []⟩

/-- `nodes_.contains(key)` -/
def containsKey (nodes : List HeapNode) (k : Key) : Bool :=
  nodes.any (fun n => n.key == k)

/-- `HeapSelector::Insert`: on success stores
`HeapNode(key, priority * sign_, update_count_++)` and pushes it. -/
def Insert (s : HeapSelector) (key : Key) (priority : ℚ) : Status × HeapSelector :=
  if containsKey s.nodes key then
    (invalidArgumentError ("Key " ++ toString key ++ " already inserted."), s)
  else
    (okStatus, { s with
      nodes := s.nodes ++ [⟨key, priority * s.sign, s.update_count⟩],
      update_count := s.update_count + 1 })

/-- `HeapSelector::Delete`: removes the key's node from heap and map. -/
def Delete (s : HeapSelector) (key : Key) : Status × HeapSelector :=
  if containsKey s.nodes key then
    (okStatus, { s with nodes := s.nodes.filter (fun n => n.key != key) })
  else
    (invalidArgumentError ("Key " ++ toString key ++ " not found."), s)

/-- `HeapSelector::Update`: on success sets the node's stored priority to
`priority * sign_`, stamps it with `update_count_++` and re-heapifies. -/
def Update (s : HeapSelector) (key : Key) (priority : ℚ) : Status × HeapSelector :=
  if containsKey s.nodes key then
    (okStatus, { s with
      nodes := s.nodes.filter (fun n => n.key != key) ++
        [⟨key, priority * s.sign, s.update_count⟩],
      update_count := s.update_count + 1 })
  else
    (invalidArgumentError ("Key " ++ toString key ++ " not found."), s)

/-- Modelled from the spec: the intrusive-heap comparator lives in the
unavailable `heap.h`.  Per the spec the heap is "keyed by
`(sign · priority, update_counter)`; ties broken by monotonically
increasing update counter so later Updates rise": of two nodes the one
with smaller stored priority is preferred, and among equal stored
priorities the one with the larger (later) update number. -/
def preferred (a b : HeapNode) : HeapNode :=
  if a.priority < b.priority then a
  else if b.priority < a.priority then b
  else if b.update_number < a.update_number then a
  else b

/-- `heap_.top()`: the least node under the comparator. -/
def heapTop : List HeapNode → Option HeapNode
  | [] => none
  | n :: rest => some (rest.foldl preferred n)

/-- `HeapSelector::Sample`: `REVERB_CHECK(!nodes_.empty())` then
`{heap_.top()->key, 1.}`.  The failed check is modelled as `none`. -/
def Sample (s : HeapSelector) : Option KeyWithProbability :=
  (heapTop s.nodes).map fun n => ⟨n.key, 1⟩

/-- `HeapSelector::Clear`: clears the nodes but not `update_count_`. -/
def Clear (s : HeapSelector) : HeapSelector := { s with nodes := [] }

/-- States reachable from a freshly-constructed selector (either
orientation) by any sequence of operations. -/
inductive Reach : HeapSelector → Prop
  | init (min_heap : Bool) : Reach (init min_heap)
  | insert {s k p} : Reach s → Reach (Insert s k p).2
  | delete {s k} : Reach s → Reach (Delete s k).2
  | update {s k p} : Reach s → Reach (Update s k p).2
  | clear {s} : Reach s → Reach (Clear s)

/-- Invariant: node keys are distinct, node update numbers are distinct,
and every update number is below the counter. -/
def Inv (s : HeapSelector) : Prop :=
  (s.nodes.map HeapNode.key).Nodup ∧
  (s.nodes.map HeapNode.update_number).Nodup ∧
  ∀ n ∈ s.nodes, n.update_number < s.update_count

theorem filter_nodes_inv {nodes : List HeapNode} {key : Key}
    (hk : (nodes.map HeapNode.key).Nodup)
    (hu : (nodes.map HeapNode.update_number).Nodup) :
    ((nodes.filter (fun n => n.key != key)).map HeapNode.key).Nodup ∧
    ((nodes.filter (fun n => n.key != key)).map HeapNode.update_number).Nodup := by
  constructor
  · exact hk.sublist ((List.filter_sublist nodes).map _)
  · exact hu.sublist ((List.filter_sublist nodes).map _)

theorem append_fresh_inv {nodes : List HeapNode} {base : List HeapNode} {key : Key}
    {p : ℚ} {cnt : Nat}
    (hsub : base.Sublist nodes)
    (hk : (nodes.map HeapNode.key).Nodup)
    (hu : (nodes.map HeapNode.update_number).Nodup)
    (hb : ∀ n ∈ nodes, n.update_number < cnt)
    (hkey : ∀ n ∈ base, n.key ≠ key) :
    ((base ++ [HeapNode.mk key p cnt]).map HeapNode.key).Nodup ∧
    ((base ++ [HeapNode.mk key p cnt]).map HeapNode.update_number).Nodup ∧
    ∀ n ∈ base ++ [HeapNode.mk key p cnt], n.update_number < cnt + 1 := by
  have hk' : (base.map HeapNode.key).Nodup := hk.sublist (hsub.map _)
  have hu' : (base.map HeapNode.update_number).Nodup := hu.sublist (hsub.map _)
  refine ⟨?_, ?_, ?_⟩
  · rw [List.map_append, List.nodup_append]
    refine ⟨hk', List.nodup_singleton _, ?_⟩
    intro a ha hb'
    simp only [List.map_cons, List.map_nil, List.mem_singleton] at hb'
    subst hb'
    obtain ⟨n, hn, hna⟩ := List.mem_map.1 ha
    exact hkey n hn hna
  · rw [List.map_append, List.nodup_append]
    refine ⟨hu', List.nodup_singleton _, ?_⟩
    intro a ha hb'
    simp only [List.map_cons, List.map_nil, List.mem_singleton] at hb'
    obtain ⟨n, hn, hna⟩ := List.mem_map.1 ha
    have hlt := hb n (hsub.mem hn)
    have hna' : n.update_number = cnt := hna.trans hb'
    omega
  · intro n hn
    rcases List.mem_append.1 hn with hmem | hmem
    · have := hb n (hsub.mem hmem)
      omega
    · simp only [List.mem_singleton] at hmem
      subst hmem
      exact Nat.lt_succ_self cnt

/-- Every reachable `HeapSelector` state satisfies the invariant. -/
theorem heap_reach_inv {s : HeapSelector} (h : Reach s) : Inv s := by
  induction h with
  | init min_heap =>
    exact ⟨List.nodup_nil, List.nodup_nil, by intro n hn; cases hn⟩
  | @insert s k p _ ih =>
    obtain ⟨hk, hu, hb⟩ := ih
    cases hc : containsKey s.nodes k with
    | true =>
      simp only [Insert, hc, reduceIte]
      exact ⟨hk, hu, hb⟩
    | false =>
      have hkey : ∀ n ∈ s.nodes, n.key ≠ k := by
        intro n hn hnk
        have : containsKey s.nodes k = true := by
          unfold containsKey
          rw [List.any_eq_true]
          exact ⟨n, hn, by simp [hnk]⟩
        rw [hc] at this
        cases this
      simp only [Insert, hc, Bool.false_eq_true, if_false]
      exact append_fresh_inv (List.Sublist.refl _) hk hu hb hkey
  | @delete s k _ ih =>
    obtain ⟨hk, hu, hb⟩ := ih
    cases hc : containsKey s.nodes k with
    | true =>
      simp only [Delete, hc, reduceIte]
      obtain ⟨hk', hu'⟩ := filter_nodes_inv hk hu
      exact ⟨hk', hu', fun n hn => hb n ((List.filter_sublist s.nodes).mem hn)⟩
    | false =>
      simp only [Delete, hc, Bool.false_eq_true, if_false]
      exact ⟨hk, hu, hb⟩
  | @update s k p _ ih =>
    obtain ⟨hk, hu, hb⟩ := ih
    cases hc : containsKey s.nodes k with
    | true =>
      simp only [Update, hc, reduceIte]
      refine append_fresh_inv (List.filter_sublist s.nodes) hk hu hb ?_
      intro n hn hnk
      have := List.of_mem_filter hn
      rw [hnk] at this
      simp at this
    | false =>
      simp only [Update, hc, Bool.false_eq_true, if_false]
      exact ⟨hk, hu, hb⟩
  | clear _ ih =>
    exact ⟨List.nodup_nil, List.nodup_nil, by intro n hn; cases hn⟩

/-! ### The heap root is the least node -/

/-- The (total) preorder the comparator optimizes: smaller stored
priority first, later update number first among equal priorities. -/
def nodeLE (a b : HeapNode) : Prop :=
  a.priority < b.priority ∨ (a.priority = b.priority ∧ b.update_number ≤ a.update_number)

theorem nodeLE_refl (a : HeapNode) : nodeLE a a := Or.inr ⟨rfl, Nat.le_refl _⟩

theorem nodeLE_trans {a b c : HeapNode} (h1 : nodeLE a b) (h2 : nodeLE b c) : nodeLE a c := by
  rcases h1 with h1 | ⟨h1, h1'⟩ <;> rcases h2 with h2 | ⟨h2, h2'⟩
  · exact Or.inl (h1.trans h2)
  · exact Or.inl (h2 ▸ h1)
  · exact Or.inl (h1 ▸ h2)
  · exact Or.inr ⟨h1.trans h2, h2'.trans h1'⟩

theorem preferred_eq_or (a b : HeapNode) : preferred a b = a ∨ preferred a b = b := by
  unfold preferred
  split
  · exact Or.inl rfl
  · split
    · exact Or.inr rfl
    · split
      · exact Or.inl rfl
      · exact Or.inr rfl

theorem preferred_le_left (a b : HeapNode) : nodeLE (preferred a b) a := by
  unfold preferred
  split
  · exact nodeLE_refl a
  · rename_i h1
    split
    · rename_i h2
      exact Or.inl h2
    · split
      · exact nodeLE_refl a
      · rename_i h2 h3
        have hpq : a.priority = b.priority := le_antisymm (not_lt.1 h2) (not_lt.1 h1)
        exact Or.inr ⟨hpq.symm, not_lt.1 h3⟩

theorem preferred_le_right (a b : HeapNode) : nodeLE (preferred a b) b := by
  unfold preferred
  split
  · rename_i h1
    exact Or.inl h1
  · rename_i h1
    split
    · exact nodeLE_refl b
    · rename_i h2
      have hpq : a.priority = b.priority := le_antisymm (not_lt.1 h2) (not_lt.1 h1)
      split
      · rename_i h3
        exact Or.inr ⟨hpq, Nat.le_of_lt h3⟩
      · exact nodeLE_refl b

theorem foldl_preferred_spec (l : List HeapNode) (a : HeapNode) :
    (l.foldl preferred a = a ∨ l.foldl preferred a ∈ l) ∧
    nodeLE (l.foldl preferred a) a ∧ ∀ x ∈ l, nodeLE (l.foldl preferred a) x := by
  induction l generalizing a with
  | nil => exact ⟨Or.inl rfl, nodeLE_refl a, by intro x hx; cases hx⟩
  | cons b l ih =>
    obtain ⟨hmem, hle, hall⟩ := ih (preferred a b)
    rw [List.foldl_cons]
    refine ⟨?_, ?_, ?_⟩
    · rcases hmem with hm | hm
      · rcases preferred_eq_or a b with hp | hp
        · exact Or.inl (hm.trans hp)
        · exact Or.inr (by rw [hm, hp]; exact List.mem_cons_self b l)
      · exact Or.inr (List.mem_cons_of_mem b hm)
    · exact nodeLE_trans hle (preferred_le_left a b)
    · intro x hx
      rcases List.mem_cons.1 hx with hxb | hxl
      · subst hxb
        exact nodeLE_trans hle (preferred_le_right a x)
      · exact hall x hxl

end HeapSelector

/-! ## Rate-limiter timeout marker (`reverb/cc/errors.cc`) -/

namespace errors

/-- `kTimeoutExceededErrorMessage` in `reverb/cc/errors.cc`. -/
def kTimeoutExceededErrorMessage : String :=
  "Rate Limiter: Timeout exceeded before the right to insert was acquired."

/-- `errors::RateLimiterTimeout()`:
`tensorflow::errors::DeadlineExceeded(kTimeoutExceededErrorMessage)`. -/
def RateLimiterTimeout : Status :=
  ⟨.deadlineExceeded, kTimeoutExceededErrorMessage⟩

/-- `absl::StrContains(haystack, needle)`: substring test. -/
def StrContains (haystack needle : String) : Bool :=
  decide (needle.data <:+: haystack.data)

/-- `tensorflow::errors::IsDeadlineExceeded(status)` -/
def IsDeadlineExceeded (s : Status) : Bool :=
  s.code == .deadlineExceeded

/-- `errors::IsRateLimiterTimeout(status)` -/
def IsRateLimiterTimeout (s : Status) : Bool :=
  IsDeadlineExceeded s && StrContains s.message kTimeoutExceededErrorMessage

end errors

/-! ## `ReverbDatasetOp::Dataset::Iterator::GetNextInternal`
(`reverb/cc/ops/dataset.cc`)

Only the status-handling tail is embedded: after the sampler call has
produced `status`, the iterator decides whether to surface it, convert it
to end-of-sequence, or return the data.  `rate_limiter_timeout` is an
`absl::Duration`; `Int64MillisToNonnegativeDuration` maps a negative
attribute to `InfiniteDuration`, so the configuration is modelled as an
optional finite millisecond count. -/

/-- `absl::Duration` as used by the dataset op: either a finite number of
milliseconds or `absl::InfiniteDuration()`. -/
inductive Duration where
  | finite (ms : Nat)
  | infinite
  deriving DecidableEq, Repr

/-- `d < absl::InfiniteDuration()` -/
def Duration.ltInfinite : Duration → Bool
  | .finite _ => true
  | .infinite => false

/-- The tail of `GetNextInternal`: given the configured
`rate_limiter_timeout`, the sampler's `status` and the incoming value of
the `end_of_sequence` out-parameter, returns the final
`(status, end_of_sequence)` pair.  (`FromTensorflowStatus` /
`ToTensorflowStatus` are identity in the model.) -/
def getNextHandleStatus (rate_limiter_timeout : Duration) (status : Status)
    (end_of_sequence : Bool) : Status × Bool :=
  if status.code = .ok then
    (status, false)
  else if rate_limiter_timeout.ltInfinite ∧ errors.IsRateLimiterTimeout status then
    (okStatus, true)
  else
    (status, end_of_sequence)

/-! ## Writer chunk transmission and retry policy (`reverb/cc/writer.cc`)

Modelled from the spec: `writer.cc` itself is not available (only its
test file is).  Relevant spec sentences: "A background writer thread …
transmits `{unseen chunks, item}` to the server, marking chunks as *sent*
so they are never re-transmitted on the same stream", "on reconnection
the writer re-sends only chunks that (i) are referenced by still-pending
items and (ii) have not been confirmed on the new stream", and "The
writer retries only `Unavailable`/`Aborted`; all other codes surface on
the next public call". -/

/-- An item as the writer sees it: the chunk keys its trajectory
references. -/
structure WriterItem where
  chunk_keys : List Key
  deriving DecidableEq, Repr

/-- Modelled from the spec: the writer-side transmission state — chunks
already sent on the current stream and items awaiting confirmation. -/
structure WriterState where
  streamed_chunks : List Key
  pending_items : List WriterItem
  deriving DecidableEq, Repr

namespace Writer

/-- Modelled from the spec: transmitting one item sends exactly the
referenced chunks not yet sent on the current stream (each once), then
the item; the sent chunks are marked as streamed.  Returns the new state
and the chunk keys put on the wire for this item. -/
def sendItem (w : WriterState) (it : WriterItem) : WriterState × List Key :=
  let fresh := (it.chunk_keys.filter (fun k => !w.streamed_chunks.contains k)).dedup
  (⟨w.streamed_chunks ++ fresh, w.pending_items ++ [it]⟩, fresh)

/-- Modelled from the spec: the server confirms items in transmission
order; a confirmation drops the oldest pending item. -/
def confirmItem (w : WriterState) : WriterState :=
  ⟨w.streamed_chunks, w.pending_items.drop 1⟩

/-- Modelled from the spec: replacing the stream resets the set of chunks
sent on the (new) stream; the writer then re-sends exactly the chunks
referenced by still-pending items, none of which has been sent on the new
stream yet.  Returns the new state and the re-sent chunk keys. -/
def reconnect (w : WriterState) : WriterState × List Key :=
  let resend := (w.pending_items.flatMap (fun it => it.chunk_keys)).dedup
  (⟨resend, w.pending_items⟩, resend)

/-- Running a sequence of item transmissions on one stream, concatenating
everything put on the wire. -/
def runStream : WriterState → List WriterItem → WriterState × List Key
  | w, [] => (w, [])
  | w, it :: rest =>
    ((runStream (sendItem w it).1 rest).1,
     (sendItem w it).2 ++ (runStream (sendItem w it).1 rest).2)

/-- Modelled from the spec: the transport status codes the writer
retries. -/
def isTransient (c : StatusCode) : Bool :=
  c == .unavailable || c == .aborted

/-- Modelled from the spec: the writer's unrecoverable-error latch.  A
stream failure with a transient code is retried (latch unchanged); any
other code is stored and surfaced later. -/
def onStreamError (latch : Option StatusCode) (c : StatusCode) :
    Option StatusCode × Bool :=
  if isTransient c then (latch, true) else (some c, false)

/-- Modelled from the spec: the next public call (`CreateItem`, `Flush`,
`Close` with pending items) returns the latched error, or OK. -/
def publicCallStatus (latch : Option StatusCode) : Status :=
  match latch with
  | some c => ⟨c, "error communicating with server"⟩
  | none => okStatus

end Writer

/-! ## `WeakCellRef` accessors (`reverb/pybind.cc`)

The pybind lambdas first `lock()` the weak reference; on failure they
raise `FailedPrecondition` through `MaybeRaiseFromStatus` (modelled as
`Except.error`), and only on success dereference the strong pointer.
`GetData`/`GetSpec` on a live cell are abstracted as the stored payload
and spec (their own failure modes concern unresolved chunks, which are
not part of these claims). -/

/-- The data a live `CellRef` can produce: an abstract tensor payload and
its spec (dtype code and shape dims, `-1` = unknown). -/
structure CellRefData where
  tensor : Int
  dtype : Nat
  shape : List Int
  deriving DecidableEq, Repr

/-- `WeakCellRef`: wraps a `std::weak_ptr<CellRef>`.  `alive` says
whether `lock()` succeeds. -/
structure WeakCellRef where
  cell : CellRefData
  alive : Bool
  deriving DecidableEq, Repr

namespace WeakCellRef

/-- `ref->ref().lock()` -/
def lock (r : WeakCellRef) : Option CellRefData :=
  if r.alive then some r.cell else none

/-- The `expired` property binding (`WeakCellRef::expired`). -/
def expired (r : WeakCellRef) : Bool := !r.alive

/-- The `numpy()` binding. -/
def numpy (r : WeakCellRef) : Except Status Int :=
  match r.lock with
  | none => .error ⟨.failedPrecondition, "Cannot access data from expired WeakCellRef"⟩
  | some sp => .ok sp.tensor

/-- The `shape` binding: dims with `-1` replaced by `none`. -/
def shape (r : WeakCellRef) : Except Status (List (Option Int)) :=
  match r.lock with
  | none => .error ⟨.failedPrecondition, "Cannot access data from expired WeakCellRef"⟩
  | some sp => .ok (sp.shape.map (fun d => if d = -1 then none else some d))

/-- The `dtype` binding. -/
def dtype (r : WeakCellRef) : Except Status Nat :=
  match r.lock with
  | none => .error ⟨.failedPrecondition, "Cannot access data from expired WeakCellRef"⟩
  | some sp => .ok sp.dtype

end WeakCellRef

/-! ## Error-contract helper lemmas -/

namespace UniformSelector

theorem uniform_Insert_code_iff {s : UniformSelector} (h : Inv s) (k : Key) (p : ℚ) :
    ((Insert s k p).1.code = .invalidArgument ↔ k ∈ s.keys) ∧
    ((Insert s k p).1.code = .ok ↔ k ∉ s.keys) := by
  cases hm : (mlookup s.key_to_index k).isSome with
  | true =>
    have hmem : k ∈ s.keys := (h.mem_iff k).1 hm
    simp [Insert, hm, invalidArgumentError, hmem]
  | false =>
    have hmem : k ∉ s.keys := by
      intro hc
      rw [(h.mem_iff k).2 hc] at hm
      cases hm
    simp [Insert, hm, okStatus, hmem]

theorem uniform_Delete_code_iff {s : UniformSelector} (h : Inv s) (k : Key) :
    ((Delete s k).1.code = .invalidArgument ↔ k ∉ s.keys) ∧
    ((Delete s k).1.code = .ok ↔ k ∈ s.keys) := by
  cases hm : mlookup s.key_to_index k with
  | none =>
    have hmem : k ∉ s.keys := by
      intro hc
      have := (h.mem_iff k).2 hc
      rw [hm] at this
      cases this
    simp [Delete, hm, invalidArgumentError, hmem]
  | some index =>
    have hmem : k ∈ s.keys := (h.mem_iff k).1 (by rw [hm]; rfl)
    by_cases hne : index ≠ s.keys.length - 1 <;>
      simp [Delete, hm, hne, okStatus, hmem]

theorem uniform_Update_code_iff {s : UniformSelector} (h : Inv s) (k : Key) (p : ℚ) :
    ((Update s k p).1.code = .invalidArgument ↔ k ∉ s.keys) ∧
    ((Update s k p).1.code = .ok ↔ k ∈ s.keys) := by
  cases hm : mlookup s.key_to_index k with
  | none =>
    have hmem : k ∉ s.keys := by
      intro hc
      have := (h.mem_iff k).2 hc
      rw [hm] at this
      cases this
    simp [Update, hm, invalidArgumentError, hmem]
  | some index =>
    have hmem : k ∈ s.keys := (h.mem_iff k).1 (by rw [hm]; rfl)
    simp [Update, hm, okStatus, hmem]

theorem uniform_Sample_isSome_iff (s : UniformSelector) (i : Nat) :
    (Sample s i).isSome ↔ s.keys ≠ [] := by
  cases hk : s.keys.isEmpty with
  | true =>
    simp [Sample, hk, List.isEmpty_eq_true.1 hk]
  | false =>
    have hne : s.keys ≠ [] := by
      intro hc
      rw [hc] at hk
      cases hk
    simp [Sample, hk, hne]

end UniformSelector

namespace LifoSelector

/-- Plain reachability: some ghost insertion history exists. -/
def Reach (s : LifoSelector) : Prop := ∃ h, Trace s h

theorem contains_eq_mem_keys {s : LifoSelector} (h : Reach s) (k : Key) :
    s.key_to_iterator.contains k = true ↔ k ∈ s.keys := by
  obtain ⟨g, t⟩ := h
  obtain ⟨_, hdom, _⟩ := lifo_trace_inv t
  rw [hdom]
  exact contains_iff_mem _ _

theorem lifo_Insert_code_iff {s : LifoSelector} (h : Reach s) (k : Key) (p : ℚ) :
    ((Insert s k p).1.code = .invalidArgument ↔ k ∈ s.keys) ∧
    ((Insert s k p).1.code = .ok ↔ k ∉ s.keys) := by
  cases hc : s.key_to_iterator.contains k with
  | true =>
    have hmem : k ∈ s.keys := (contains_eq_mem_keys h k).1 hc
    have hcm : k ∈ s.key_to_iterator := (contains_iff_mem _ _).1 hc
    simp [Insert, hcm, invalidArgumentError, hmem]
  | false =>
    have hmem : k ∉ s.keys := by
      intro hm
      rw [(contains_eq_mem_keys h k).2 hm] at hc
      cases hc
    have hcm : k ∉ s.key_to_iterator := by
      intro hm
      rw [(contains_iff_mem _ _).2 hm] at hc
      cases hc
    simp [Insert, hcm, okStatus, hmem]

theorem lifo_Delete_code_iff {s : LifoSelector} (h : Reach s) (k : Key) :
    ((Delete s k).1.code = .invalidArgument ↔ k ∉ s.keys) ∧
    ((Delete s k).1.code = .ok ↔ k ∈ s.keys) := by
  cases hc : s.key_to_iterator.contains k with
  | true =>
    have hmem : k ∈ s.keys := (contains_eq_mem_keys h k).1 hc
    have hcm : k ∈ s.key_to_iterator := (contains_iff_mem _ _).1 hc
    simp [Delete, hcm, okStatus, hmem]
  | false =>
    have hmem : k ∉ s.keys := by
      intro hm
      rw [(contains_eq_mem_keys h k).2 hm] at hc
      cases hc
    have hcm : k ∉ s.key_to_iterator := by
      intro hm
      rw [(contains_iff_mem _ _).2 hm] at hc
      cases hc
    simp [Delete, hcm, invalidArgumentError, hmem]

theorem lifo_Update_code_iff {s : LifoSelector} (h : Reach s) (k : Key) (p : ℚ) :
    ((Update s k p).1.code = .invalidArgument ↔ k ∉ s.keys) ∧
    ((Update s k p).1.code = .ok ↔ k ∈ s.keys) := by
  cases hc : s.key_to_iterator.contains k with
  | true =>
    have hmem : k ∈ s.keys := (contains_eq_mem_keys h k).1 hc
    have hcm : k ∈ s.key_to_iterator := (contains_iff_mem _ _).1 hc
    simp [Update, hcm, okStatus, hmem]
  | false =>
    have hmem : k ∉ s.keys := by
      intro hm
      rw [(contains_eq_mem_keys h k).2 hm] at hc
      cases hc
    have hcm : k ∉ s.key_to_iterator := by
      intro hm
      rw [(contains_iff_mem _ _).2 hm] at hc
      cases hc
    simp [Update, hcm, invalidArgumentError, hmem]

theorem lifo_Sample_isSome_iff (s : LifoSelector) :
    (Sample s).isSome ↔ s.keys ≠ [] := by
  unfold Sample
  cases hk : s.keys with
  | nil => simp
  | cons a l => simp

end LifoSelector

namespace HeapSelector

theorem containsKey_iff (nodes : List HeapNode) (k : Key) :
    containsKey nodes k = true ↔ k ∈ nodes.map HeapNode.key := by
  unfold containsKey
  rw [List.any_eq_true]
  constructor
  · rintro ⟨n, hn, hbeq⟩
    exact List.mem_map.2 ⟨n, hn, by simpa using hbeq⟩
  · intro hm
    obtain ⟨n, hn, rfl⟩ := List.mem_map.1 hm
    exact ⟨n, hn, by simp⟩

theorem heap_Insert_code_iff (s : HeapSelector) (k : Key) (p : ℚ) :
    ((Insert s k p).1.code = .invalidArgument ↔ k ∈ s.nodes.map HeapNode.key) ∧
    ((Insert s k p).1.code = .ok ↔ k ∉ s.nodes.map HeapNode.key) := by
  cases hc : containsKey s.nodes k with
  | true =>
    have hmem := (containsKey_iff s.nodes k).1 hc
    simp [Insert, hc, invalidArgumentError, hmem]
  | false =>
    have hmem : k ∉ s.nodes.map HeapNode.key := by
      intro hm
      rw [(containsKey_iff s.nodes k).2 hm] at hc
      cases hc
    simp [Insert, hc, okStatus, hmem]

theorem heap_Delete_code_iff (s : HeapSelector) (k : Key) :
    ((Delete s k).1.code = .invalidArgument ↔ k ∉ s.nodes.map HeapNode.key) ∧
    ((Delete s k).1.code = .ok ↔ k ∈ s.nodes.map HeapNode.key) := by
  cases hc : containsKey s.nodes k with
  | true =>
    have hmem := (containsKey_iff s.nodes k).1 hc
    simp [Delete, hc, okStatus, hmem]
  | false =>
    have hmem : k ∉ s.nodes.map HeapNode.key := by
      intro hm
      rw [(containsKey_iff s.nodes k).2 hm] at hc
      cases hc
    simp [Delete, hc, invalidArgumentError, hmem]

theorem heap_Update_code_iff (s : HeapSelector) (k : Key) (p : ℚ) :
    ((Update s k p).1.code = .invalidArgument ↔ k ∉ s.nodes.map HeapNode.key) ∧
    ((Update s k p).1.code = .ok ↔ k ∈ s.nodes.map HeapNode.key) := by
  cases hc : containsKey s.nodes k with
  | true =>
    have hmem := (containsKey_iff s.nodes k).1 hc
    simp [Update, hc, okStatus, hmem]
  | false =>
    have hmem : k ∉ s.nodes.map HeapNode.key := by
      intro hm
      rw [(containsKey_iff s.nodes k).2 hm] at hc
      cases hc
    simp [Update, hc, invalidArgumentError, hmem]

theorem heap_Sample_isSome_iff (s : HeapSelector) :
    (Sample s).isSome ↔ s.nodes ≠ [] := by
  unfold Sample heapTop
  cases hk : s.nodes with
  | nil => simp
  | cons a l => simp

end HeapSelector

/-! ## Failure-frame helper lemmas: a failed call returns the state
unchanged -/

namespace UniformSelector

theorem uniform_Insert_fail_frame (s : UniformSelector) (k : Key) (p : ℚ) :
    (Insert s k p).1.code ≠ .ok → (Insert s k p).2 = s := by
  cases hm : (mlookup s.key_to_index k).isSome with
  | true => intro _; simp [Insert, hm]
  | false =>
    intro hc
    exfalso
    apply hc
    simp [Insert, hm, okStatus]

theorem uniform_Delete_fail_frame (s : UniformSelector) (k : Key) :
    (Delete s k).1.code ≠ .ok → (Delete s k).2 = s := by
  cases hm : mlookup s.key_to_index k with
  | none => intro _; simp [Delete, hm]
  | some index =>
    intro hc
    exfalso
    apply hc
    by_cases hne : index ≠ s.keys.length - 1 <;> simp [Delete, hm, hne, okStatus]

theorem uniform_Update_fail_frame (s : UniformSelector) (k : Key) (p : ℚ) :
    (Update s k p).1.code ≠ .ok → (Update s k p).2 = s := by
  cases hm : (mlookup s.key_to_index k).isNone with
  | true => intro _; simp [Update, hm]
  | false =>
    intro hc
    exfalso
    apply hc
    simp [Update, hm, okStatus]

end UniformSelector

namespace LifoSelector

theorem lifo_Insert_fail_frame (s : LifoSelector) (k : Key) (p : ℚ) :
    (Insert s k p).1.code ≠ .ok → (Insert s k p).2 = s := by
  cases hc : s.key_to_iterator.contains k with
  | true =>
    intro _
    have hcm : k ∈ s.key_to_iterator := (contains_iff_mem _ _).1 hc
    simp [Insert, hcm]
  | false =>
    intro hok
    exfalso
    apply hok
    have hcm : k ∉ s.key_to_iterator := by
      intro hm
      rw [(contains_iff_mem _ _).2 hm] at hc
      cases hc
    simp [Insert, hcm, okStatus]

theorem lifo_Delete_fail_frame (s : LifoSelector) (k : Key) :
    (Delete s k).1.code ≠ .ok → (Delete s k).2 = s := by
  cases hc : s.key_to_iterator.contains k with
  | true =>
    intro hok
    exfalso
    apply hok
    have hcm : k ∈ s.key_to_iterator := (contains_iff_mem _ _).1 hc
    simp [Delete, hcm, okStatus]
  | false =>
    intro _
    have hcm : k ∉ s.key_to_iterator := by
      intro hm
      rw [(contains_iff_mem _ _).2 hm] at hc
      cases hc
    simp [Delete, hcm]

theorem lifo_Update_fail_frame (s : LifoSelector) (k : Key) (p : ℚ) :
    (Update s k p).1.code ≠ .ok → (Update s k p).2 = s := by
  cases hc : s.key_to_iterator.contains k with
  | true =>
    intro _
    have hcm : k ∈ s.key_to_iterator := (contains_iff_mem _ _).1 hc
    simp [Update, hcm]
  | false =>
    intro _
    have hcm : k ∉ s.key_to_iterator := by
      intro hm
      rw [(contains_iff_mem _ _).2 hm] at hc
      cases hc
    simp [Update, hcm]

end LifoSelector

namespace HeapSelector

theorem heap_Insert_fail_frame (s : HeapSelector) (k : Key) (p : ℚ) :
    (Insert s k p).1.code ≠ .ok → (Insert s k p).2 = s := by
  cases hc : containsKey s.nodes k with
  | true => intro _; simp [Insert, hc]
  | false =>
    intro hok
    exfalso
    apply hok
    simp [Insert, hc, okStatus]

theorem heap_Delete_fail_frame (s : HeapSelector) (k : Key) :
    (Delete s k).1.code ≠ .ok → (Delete s k).2 = s := by
  cases hc : containsKey s.nodes k with
  | true =>
    intro hok
    exfalso
    apply hok
    simp [Delete, hc, okStatus]
  | false => intro _; simp [Delete, hc]

theorem heap_Update_fail_frame (s : HeapSelector) (k : Key) (p : ℚ) :
    (Update s k p).1.code ≠ .ok → (Update s k p).2 = s := by
  cases hc : containsKey s.nodes k with
  | true =>
    intro hok
    exfalso
    apply hok
    simp [Update, hc, okStatus]
  | false => intro _; simp [Update, hc]

end HeapSelector

/-! ## Claim theorems -/

/-- **C1**: for every reachable state of each `ItemSelector` variant
(Uniform, LIFO, Heap): `Insert(key, priority)` returns `InvalidArgument`
if and only if the key is already present (and OK otherwise); `Delete`
and `Update` return `InvalidArgument` if and only if the key is not
present (and OK otherwise); and `Sample` succeeds exactly when the key
set is non-empty (the `REVERB_CHECK(!empty)` precondition, modelled as
`none` on the empty state). -/
theorem C1_selector_error_contract
    (u : UniformSelector) (hu : UniformSelector.Reach u)
    (l : LifoSelector) (hl : LifoSelector.Reach l)
    (s : HeapSelector) (hs : HeapSelector.Reach s)
    (k : Key) (p : ℚ) (i : Nat) :
    (((UniformSelector.Insert u k p).1.code = .invalidArgument ↔ k ∈ u.keys) ∧
      ((UniformSelector.Insert u k p).1.code = .ok ↔ k ∉ u.keys) ∧
      ((UniformSelector.Delete u k).1.code = .invalidArgument ↔ k ∉ u.keys) ∧
      ((UniformSelector.Delete u k).1.code = .ok ↔ k ∈ u.keys) ∧
      ((UniformSelector.Update u k p).1.code = .invalidArgument ↔ k ∉ u.keys) ∧
      ((UniformSelector.Update u k p).1.code = .ok ↔ k ∈ u.keys) ∧
      ((UniformSelector.Sample u i).isSome ↔ u.keys ≠ [])) ∧
    (((LifoSelector.Insert l k p).1.code = .invalidArgument ↔ k ∈ l.keys) ∧
      ((LifoSelector.Insert l k p).1.code = .ok ↔ k ∉ l.keys) ∧
      ((LifoSelector.Delete l k).1.code = .invalidArgument ↔ k ∉ l.keys) ∧
      ((LifoSelector.Delete l k).1.code = .ok ↔ k ∈ l.keys) ∧
      ((LifoSelector.Update l k p).1.code = .invalidArgument ↔ k ∉ l.keys) ∧
      ((LifoSelector.Update l k p).1.code = .ok ↔ k ∈ l.keys) ∧
      ((LifoSelector.Sample l).isSome ↔ l.keys ≠ [])) ∧
    (((HeapSelector.Insert s k p).1.code = .invalidArgument ↔
        k ∈ s.nodes.map HeapNode.key) ∧
      ((HeapSelector.Insert s k p).1.code = .ok ↔ k ∉ s.nodes.map HeapNode.key) ∧
      ((HeapSelector.Delete s k).1.code = .invalidArgument ↔
        k ∉ s.nodes.map HeapNode.key) ∧
      ((HeapSelector.Delete s k).1.code = .ok ↔ k ∈ s.nodes.map HeapNode.key) ∧
      ((HeapSelector.Update s k p).1.code = .invalidArgument ↔
        k ∉ s.nodes.map HeapNode.key) ∧
      ((HeapSelector.Update s k p).1.code = .ok ↔ k ∈ s.nodes.map HeapNode.key) ∧
      ((HeapSelector.Sample s).isSome ↔ s.nodes ≠ [])) := by
  have huinv := UniformSelector.uniform_reach_inv hu
  refine ⟨⟨?_, ?_, ?_, ?_, ?_, ?_, ?_⟩, ⟨?_, ?_, ?_, ?_, ?_, ?_, ?_⟩,
    ⟨?_, ?_, ?_, ?_, ?_, ?_, ?_⟩⟩
  · exact (UniformSelector.uniform_Insert_code_iff huinv k p).1
  · exact (UniformSelector.uniform_Insert_code_iff huinv k p).2
  · exact (UniformSelector.uniform_Delete_code_iff huinv k).1
  · exact (UniformSelector.uniform_Delete_code_iff huinv k).2
  · exact (UniformSelector.uniform_Update_code_iff huinv k p).1
  · exact (UniformSelector.uniform_Update_code_iff huinv k p).2
  · exact UniformSelector.uniform_Sample_isSome_iff u i
  · exact (LifoSelector.lifo_Insert_code_iff hl k p).1
  · exact (LifoSelector.lifo_Insert_code_iff hl k p).2
  · exact (LifoSelector.lifo_Delete_code_iff hl k).1
  · exact (LifoSelector.lifo_Delete_code_iff hl k).2
  · exact (LifoSelector.lifo_Update_code_iff hl k p).1
  · exact (LifoSelector.lifo_Update_code_iff hl k p).2
  · exact LifoSelector.lifo_Sample_isSome_iff l
  · exact (HeapSelector.heap_Insert_code_iff s k p).1
  · exact (HeapSelector.heap_Insert_code_iff s k p).2
  · exact (HeapSelector.heap_Delete_code_iff s k).1
  · exact (HeapSelector.heap_Delete_code_iff s k).2
  · exact (HeapSelector.heap_Update_code_iff s k p).1
  · exact (HeapSelector.heap_Update_code_iff s k p).2
  · exact HeapSelector.heap_Sample_isSome_iff s

/-- Witness for C1: the theorem applied at the freshly-constructed
selectors (all hypotheses discharged concretely), first conjunct
projected out. -/
theorem C1_selector_error_contract_witness :
    (UniformSelector.Insert UniformSelector.init 3 1).1.code = .invalidArgument ↔
      3 ∈ UniformSelector.init.keys :=
  (C1_selector_error_contract UniformSelector.init UniformSelector.Reach.init
    LifoSelector.init ⟨[], LifoSelector.Trace.init⟩
    (HeapSelector.init true) (HeapSelector.Reach.init true) 3 1 0).1.1

/-- **C10**: a failed selector operation is atomic.  For every state
(reachable or not) of the Uniform, LIFO and Heap selectors, when Insert,
Delete or Update does not return OK the resulting state is exactly the
pre-call state — in particular the visible key set, the
ordering/priorities and the result of any subsequent `Sample` are
unchanged.  (In the embedding the error paths return the state itself:
`UniformSelector::Insert`'s duplicate test via `emplace` cannot mutate on
failure because the key is already present, and `HeapSelector` bumps
`update_count_` only on the success paths.) -/
theorem C10_failed_operations_atomic
    (u : UniformSelector) (l : LifoSelector) (s : HeapSelector) (k : Key) (p : ℚ) :
    ((UniformSelector.Insert u k p).1.code ≠ .ok → (UniformSelector.Insert u k p).2 = u) ∧
    ((UniformSelector.Delete u k).1.code ≠ .ok → (UniformSelector.Delete u k).2 = u) ∧
    ((UniformSelector.Update u k p).1.code ≠ .ok → (UniformSelector.Update u k p).2 = u) ∧
    ((LifoSelector.Insert l k p).1.code ≠ .ok → (LifoSelector.Insert l k p).2 = l) ∧
    ((LifoSelector.Delete l k).1.code ≠ .ok → (LifoSelector.Delete l k).2 = l) ∧
    ((LifoSelector.Update l k p).1.code ≠ .ok → (LifoSelector.Update l k p).2 = l) ∧
    ((HeapSelector.Insert s k p).1.code ≠ .ok → (HeapSelector.Insert s k p).2 = s) ∧
    ((HeapSelector.Delete s k).1.code ≠ .ok → (HeapSelector.Delete s k).2 = s) ∧
    ((HeapSelector.Update s k p).1.code ≠ .ok → (HeapSelector.Update s k p).2 = s) :=
  ⟨UniformSelector.uniform_Insert_fail_frame u k p,
   UniformSelector.uniform_Delete_fail_frame u k,
   UniformSelector.uniform_Update_fail_frame u k p,
   LifoSelector.lifo_Insert_fail_frame l k p,
   LifoSelector.lifo_Delete_fail_frame l k,
   LifoSelector.lifo_Update_fail_frame l k p,
   HeapSelector.heap_Insert_fail_frame s k p,
   HeapSelector.heap_Delete_fail_frame s k,
   HeapSelector.heap_Update_fail_frame s k p⟩

/-- Witness for C10: deleting an unknown key from the empty Uniform
selector fails and leaves the state unchanged. -/
theorem C10_failed_operations_atomic_witness :
    (UniformSelector.Delete UniformSelector.init 5).2 = UniformSelector.init :=
  (C10_failed_operations_atomic UniformSelector.init LifoSelector.init
    (HeapSelector.init true) 5 1).2.1 (by decide)

/-- **C2**: for every reachable non-empty `LifoSelector` state, `Sample`
returns the most recently inserted key still present with probability 1;
for every reachable non-empty `FifoSelector` state, `Sample` returns the
earliest-inserted key still present with probability 1.  The ghost list
of each `Trace` records the present keys ordered by insertion (earliest
first), so "most recent still present" is its last element and "earliest
still present" its head; the equations below hold for all states (both
sides are `none` exactly on the empty state, which is the
`REVERB_CHECK`ed precondition).  `Sample` is embedded as a pure function
of the state — the C++ methods only read `keys_.front()` — so it mutates
nothing. -/
theorem C2_fifo_lifo_sample_order
    (l : LifoSelector) (gl : List Key) (tl : LifoSelector.Trace l gl)
    (f : FifoSelector) (gf : List Key) (tf : FifoSelector.Trace f gf) :
    LifoSelector.Sample l = gl.getLast?.map (fun k => ⟨k, 1⟩) ∧
    FifoSelector.Sample f = gf.head?.map (fun k => ⟨k, 1⟩) ∧
    (l.keys ≠ [] → gl ≠ [] ∧ ∃ k, gl.getLast? = some k ∧
      LifoSelector.Sample l = some ⟨k, 1⟩) ∧
    (f.keys ≠ [] → gf ≠ [] ∧ ∃ k, gf.head? = some k ∧
      FifoSelector.Sample f = some ⟨k, 1⟩) := by
  obtain ⟨hlk, _, _⟩ := LifoSelector.lifo_trace_inv tl
  obtain ⟨hfk, _, _⟩ := FifoSelector.fifo_trace_inv tf
  have hls : LifoSelector.Sample l = l.keys.head?.map (fun k => ⟨k, 1⟩) := by
    unfold LifoSelector.Sample
    cases l.keys <;> simp
  have hfs : FifoSelector.Sample f = f.keys.head?.map (fun k => ⟨k, 1⟩) := by
    unfold FifoSelector.Sample
    cases f.keys <;> simp
  have h1 : LifoSelector.Sample l = gl.getLast?.map (fun k => ⟨k, 1⟩) := by
    rw [hls, hlk, List.head?_reverse]
  have h2 : FifoSelector.Sample f = gf.head?.map (fun k => ⟨k, 1⟩) := by
    rw [hfs, hfk]
  refine ⟨h1, h2, ?_, ?_⟩
  · intro hne
    have hgl : gl ≠ [] := by
      intro hc
      rw [hc] at hlk
      exact hne (by simpa using hlk)
    obtain ⟨k, hk⟩ := Option.isSome_iff_exists.1 (List.getLast?_isSome.2 hgl)
    exact ⟨hgl, k, hk, by rw [h1, hk]; rfl⟩
  · intro hne
    have hgf : gf ≠ [] := by
      intro hc
      rw [hc] at hfk
      exact hne hfk
    obtain ⟨k, hk⟩ := Option.isSome_iff_exists.1 (List.head?_isSome.2 hgf)
    exact ⟨hgf, k, hk, by rw [h2, hk]; rfl⟩

/-- Witness for C2: after inserting keys 1 then 2, the LIFO selector
samples key 2 and the FIFO selector samples key 1, both with
probability 1. -/
theorem C2_fifo_lifo_sample_order_witness :
    LifoSelector.Sample ⟨[2, 1], [2, 1]⟩ = some ⟨2, 1⟩ ∧
    FifoSelector.Sample ⟨[1, 2], [2, 1]⟩ = some ⟨1, 1⟩ := by
  have tl : LifoSelector.Trace ⟨[2, 1], [2, 1]⟩ [1, 2] :=
    LifoSelector.Trace.insert (k := 2) (p := 1)
      (LifoSelector.Trace.insert (k := 1) (p := 1) LifoSelector.Trace.init)
  have tf : FifoSelector.Trace ⟨[1, 2], [2, 1]⟩ [1, 2] :=
    FifoSelector.Trace.insert (k := 2) (p := 1)
      (FifoSelector.Trace.insert (k := 1) (p := 1) FifoSelector.Trace.init)
  have h := C2_fifo_lifo_sample_order _ _ tl _ _ tf
  exact ⟨h.1.trans rfl, h.2.1.trans rfl⟩

/-- **C3**: for every reachable non-empty `UniformSelector` state with
`n` keys and every drawn index `i < n`, `Sample` returns a key of the key
set with probability field `1/n`; moreover index `j` yields exactly the
`j`-th key and the keys are pairwise distinct, so the uniformly drawn
index induces the uniform distribution on the key set (each key has
probability `1/n`). -/
theorem C3_uniform_sample_uniformity (u : UniformSelector)
    (hu : UniformSelector.Reach u) (i : Nat) (hi : i < u.keys.length) :
    (∃ kp, UniformSelector.Sample u i = some kp ∧ kp.key ∈ u.keys ∧
      kp.probability = 1 / (u.keys.length : ℚ)) ∧
    ((List.range u.keys.length).map
      (fun j => (UniformSelector.Sample u j).map KeyWithProbability.key) =
      u.keys.map some) ∧
    u.keys.Nodup := by
  have hnd := (UniformSelector.uniform_reach_inv hu).nodup
  have hne : u.keys ≠ [] := by
    intro hc
    rw [hc] at hi
    cases hi
  have hempty : u.keys.isEmpty = false := by
    cases hk : u.keys.isEmpty with
    | false => rfl
    | true => exact absurd (List.isEmpty_eq_true.1 hk) hne
  have hsample : ∀ j, UniformSelector.Sample u j =
      some ⟨u.keys.getD j 0, 1 / (u.keys.length : ℚ)⟩ := by
    intro j
    simp [UniformSelector.Sample, hempty]
  refine ⟨⟨⟨u.keys.getD i 0, 1 / (u.keys.length : ℚ)⟩, hsample i, ?_, rfl⟩, ?_, hnd⟩
  · rw [List.getD_eq_getElem?_getD, List.getElem?_eq_getElem hi]
    exact List.getElem_mem hi
  · apply List.ext_getElem?
    intro j
    rw [List.getElem?_map, List.getElem?_map]
    cases Nat.lt_or_ge j u.keys.length with
    | inl hj =>
      rw [List.getElem?_range hj, List.getElem?_eq_getElem hj]
      simp [hsample j, List.getD_eq_getElem?_getD, List.getElem?_eq_getElem hj]
    | inr hj =>
      rw [List.getElem?_eq_none (by simpa using hj), List.getElem?_eq_none hj]
      rfl

/-- Witness for C3: the theorem applied to the reachable one-key state
obtained by inserting key 7, with drawn index 0; first conjunct
projected out. -/
theorem C3_uniform_sample_uniformity_witness :
    ∃ kp, UniformSelector.Sample ⟨[7], [(7, 0)]⟩ 0 = some kp ∧
      kp.key ∈ (⟨[7], [(7, 0)]⟩ : UniformSelector).keys ∧
      kp.probability = 1 / (((⟨[7], [(7, 0)]⟩ : UniformSelector)).keys.length : ℚ) :=
  (C3_uniform_sample_uniformity ⟨[7], [(7, 0)]⟩
    (UniformSelector.Reach.insert (s := UniformSelector.init) (k := 7) (p := 1)
      UniformSelector.Reach.init)
    0 (by decide)).1

/-- **C4**: for every reachable non-empty `HeapSelector` state, `Sample`
returns the key at the heap root with probability field 1, where the root
is the node minimal by `(sign · priority, update counter)`: its stored
sign-adjusted priority is minimal, and among nodes with equal stored
priority it has the largest (latest) update number — a key whose
Insert/Update happened later is returned before equal-priority keys
updated earlier. -/
theorem C4_heap_sample_root (s : HeapSelector) (hs : HeapSelector.Reach s)
    (hne : s.nodes ≠ []) :
    ∃ n, n ∈ s.nodes ∧ HeapSelector.Sample s = some ⟨n.key, 1⟩ ∧
      ∀ m ∈ s.nodes, m ≠ n →
        n.priority < m.priority ∨
        (n.priority = m.priority ∧ m.update_number < n.update_number) := by
  obtain ⟨hknd, hund, hbound⟩ := HeapSelector.heap_reach_inv hs
  obtain ⟨a, rest, hnl⟩ : ∃ a rest, s.nodes = a :: rest := by
    cases hx : s.nodes with
    | nil => exact absurd hx hne
    | cons a rest => exact ⟨a, rest, rfl⟩
  obtain ⟨hmem, hlea, hall⟩ := HeapSelector.foldl_preferred_spec rest a
  have hrmem : rest.foldl HeapSelector.preferred a ∈ s.nodes := by
    rw [hnl]
    rcases hmem with hm | hm
    · rw [hm]
      exact List.mem_cons_self a rest
    · exact List.mem_cons_of_mem a hm
  refine ⟨rest.foldl HeapSelector.preferred a, hrmem, ?_, ?_⟩
  · show (HeapSelector.heapTop s.nodes).map
        (fun n => ({ key := n.key, probability := 1 } : KeyWithProbability)) =
      some ⟨(rest.foldl HeapSelector.preferred a).key, 1⟩
    rw [hnl]
    rfl
  · intro m hm hmne
    have hle : HeapSelector.nodeLE (rest.foldl HeapSelector.preferred a) m := by
      rw [hnl] at hm
      rcases List.mem_cons.1 hm with hma | hmr
      · rw [hma]
        exact hlea
      · exact hall m hmr
    have hune : m.update_number ≠ (rest.foldl HeapSelector.preferred a).update_number := by
      intro heq
      exact hmne (List.inj_on_of_nodup_map hund hm hrmem heq)
    rcases hle with hlt | ⟨heq, hge⟩
    · exact Or.inl hlt
    · exact Or.inr ⟨heq, by omega⟩

/-- Witness for C4: inserting keys 4 and 5 with equal priority into a
fresh min-heap and applying the theorem — the root is key 5, the one
inserted later. -/
theorem C4_heap_sample_root_witness :
    HeapSelector.Sample
      ((HeapSelector.Insert
        ((HeapSelector.Insert (HeapSelector.init true) 4 2).2) 5 2).2) =
      some ⟨5, 1⟩ := by
  have hstate :
      (HeapSelector.Insert
        ((HeapSelector.Insert (HeapSelector.init true) 4 2).2) 5 2).2 =
      ⟨1, 2, [⟨4, 2, 0⟩, ⟨5, 2, 1⟩]⟩ := by
    simp [HeapSelector.Insert, HeapSelector.init, HeapSelector.containsKey]
  have hreach : HeapSelector.Reach (⟨1, 2, [⟨4, 2, 0⟩, ⟨5, 2, 1⟩]⟩ : HeapSelector) := by
    rw [← hstate]
    exact HeapSelector.Reach.insert
      (HeapSelector.Reach.insert (HeapSelector.Reach.init true))
  obtain ⟨n, hn, hsamp, hmin⟩ :=
    C4_heap_sample_root _ hreach (fun hc => List.noConfusion hc)
  rw [hstate, hsamp]
  rcases List.mem_cons.1 hn with h4 | h5
  · exfalso
    have hB : (⟨5, 2, 1⟩ : HeapNode) ∈
        (⟨1, 2, [⟨4, 2, 0⟩, ⟨5, 2, 1⟩]⟩ : HeapSelector).nodes :=
      List.mem_cons_of_mem _ (List.mem_cons_self _ _)
    have hne45 : (⟨5, 2, 1⟩ : HeapNode) ≠ n := by
      rw [h4]
      intro hc
      have h54 : (5 : Nat) = 4 := congrArg HeapNode.key hc
      omega
    have hcons := hmin _ hB hne45
    rw [h4] at hcons
    rcases hcons with hlt | ⟨_, hu⟩
    · have hlt' : (2 : ℚ) < 2 := hlt
      exact absurd hlt' (by norm_num)
    · have hu' : (1 : Nat) < 0 := hu
      omega
  · rw [List.mem_singleton.1 h5]

/-- **C5**: `RateLimiterTimeout()` is a `DeadlineExceeded` status whose
message is the rate-limiter marker string; `IsRateLimiterTimeout(s)` is
true iff `s` is `DeadlineExceeded` and its message contains the marker;
hence `IsRateLimiterTimeout(RateLimiterTimeout())` holds, a
`DeadlineExceeded` status without the marker is not recognized, and a
non-`DeadlineExceeded` status containing the marker text is not
recognized. -/
theorem C5_rate_limiter_timeout_marker :
    (errors.RateLimiterTimeout.code = .deadlineExceeded ∧
      errors.RateLimiterTimeout.message = errors.kTimeoutExceededErrorMessage) ∧
    (∀ s : Status, errors.IsRateLimiterTimeout s = true ↔
      (s.code = .deadlineExceeded ∧
        errors.kTimeoutExceededErrorMessage.data <:+: s.message.data)) ∧
    errors.IsRateLimiterTimeout errors.RateLimiterTimeout = true ∧
    errors.IsRateLimiterTimeout ⟨.deadlineExceeded, ""⟩ = false ∧
    errors.IsRateLimiterTimeout ⟨.cancelled, errors.kTimeoutExceededErrorMessage⟩ = false := by
  have hiff : ∀ s : Status, errors.IsRateLimiterTimeout s = true ↔
      (s.code = .deadlineExceeded ∧
        errors.kTimeoutExceededErrorMessage.data <:+: s.message.data) := by
    intro s
    unfold errors.IsRateLimiterTimeout errors.IsDeadlineExceeded errors.StrContains
    rw [Bool.and_eq_true, beq_iff_eq, decide_eq_true_eq]
  refine ⟨⟨rfl, rfl⟩, hiff, ?_, ?_, ?_⟩
  · exact (hiff _).2 ⟨rfl, List.infix_rfl⟩
  · rw [← Bool.not_eq_true]
    intro hc
    obtain ⟨-, hinf⟩ := (hiff _).1 hc
    have hnil : errors.kTimeoutExceededErrorMessage.data = [] := by
      simpa using hinf
    exact absurd hnil (by decide)
  · rw [← Bool.not_eq_true]
    intro hc
    obtain ⟨hcode, -⟩ := (hiff _).1 hc
    cases hcode

/-- **C6**: in `GetNextInternal`, a non-OK sampler status becomes OK with
`end_of_sequence = true` iff the configured `rate_limiter_timeout` is
finite and the status is a rate-limiter timeout; every other non-OK
status is returned to the caller unchanged (the out-parameter
untouched), and with an infinite configuration even a rate-limiter
timeout is surfaced as an error. -/
theorem C6_dataset_rate_limiter_eos
    (d : Duration) (st : Status) (eos : Bool) (hne : st.code ≠ .ok) :
    (getNextHandleStatus d st eos = (okStatus, true) ↔
      (d ≠ .infinite ∧ errors.IsRateLimiterTimeout st = true)) ∧
    (¬(d ≠ .infinite ∧ errors.IsRateLimiterTimeout st = true) →
      getNextHandleStatus d st eos = (st, eos)) ∧
    (d = .infinite → getNextHandleStatus d st eos = (st, eos)) := by
  have hlt : (d.ltInfinite = true) ↔ d ≠ .infinite := by
    cases d <;> simp [Duration.ltInfinite]
  have hstok : st ≠ okStatus := by
    intro hc
    rw [hc] at hne
    exact hne rfl
  unfold getNextHandleStatus
  rw [if_neg hne]
  by_cases hcond : d.ltInfinite = true ∧ errors.IsRateLimiterTimeout st = true
  · have hcond' : d ≠ .infinite ∧ errors.IsRateLimiterTimeout st = true :=
      ⟨hlt.1 hcond.1, hcond.2⟩
    rw [if_pos ⟨hcond.1, hcond.2⟩]
    refine ⟨⟨fun _ => hcond', fun _ => rfl⟩, fun hcon => absurd hcond' hcon, ?_⟩
    intro hd
    exact absurd (hlt.1 hcond.1) (by rw [hd]; intro hc; exact hc rfl)
  · have hcond' : ¬(d ≠ .infinite ∧ errors.IsRateLimiterTimeout st = true) := by
      intro ⟨h1, h2⟩
      exact hcond ⟨hlt.2 h1, h2⟩
    rw [if_neg (by intro ⟨h1, h2⟩; exact hcond ⟨h1, h2⟩)]
    refine ⟨⟨?_, fun hcon => absurd hcon hcond'⟩, fun _ => rfl, fun _ => rfl⟩
    intro hpair
    exact absurd (congrArg Prod.fst hpair) hstok

/-- Witness for C6: with a finite 0 ms rate-limiter timeout and the
rate-limiter timeout status, the iterator returns OK with
end-of-sequence. -/
theorem C6_dataset_rate_limiter_eos_witness :
    getNextHandleStatus (.finite 0) errors.RateLimiterTimeout false = (okStatus, true) := by
  have hrlt : errors.IsRateLimiterTimeout errors.RateLimiterTimeout = true := by
    unfold errors.IsRateLimiterTimeout errors.IsDeadlineExceeded errors.StrContains
    rw [Bool.and_eq_true, beq_iff_eq, decide_eq_true_eq]
    exact ⟨rfl, List.infix_rfl⟩
  exact (C6_dataset_rate_limiter_eos (.finite 0) errors.RateLimiterTimeout false
    (by decide)).1.2 ⟨fun hc => Duration.noConfusion hc, hrlt⟩

/-! ### Writer transmission lemmas -/

namespace Writer

theorem sendItem_spec (w : WriterState) (it : WriterItem) :
    (sendItem w it).1.streamed_chunks = w.streamed_chunks ++ (sendItem w it).2 ∧
    (sendItem w it).2.Nodup ∧
    (∀ k ∈ (sendItem w it).2, k ∉ w.streamed_chunks) ∧
    (∀ k ∈ (sendItem w it).2, k ∈ it.chunk_keys) := by
  refine ⟨rfl, List.nodup_dedup _, ?_, ?_⟩
  · intro k hk
    have hk' := List.mem_dedup.1 hk
    have hf := List.of_mem_filter hk'
    rw [Bool.not_eq_true'] at hf
    intro hmem
    rw [(contains_iff_mem _ _).2 hmem] at hf
    cases hf
  · intro k hk
    exact List.mem_of_mem_filter (List.mem_dedup.1 hk)

theorem runStream_spec (its : List WriterItem) : ∀ w : WriterState,
    (runStream w its).1.streamed_chunks = w.streamed_chunks ++ (runStream w its).2 ∧
    (runStream w its).2.Nodup ∧
    (∀ k ∈ (runStream w its).2, k ∉ w.streamed_chunks) := by
  induction its with
  | nil =>
    intro w
    exact ⟨by simp [runStream], List.nodup_nil, by intro k hk; cases hk⟩
  | cons it rest ih =>
    intro w
    obtain ⟨hs1, hnd1, hdisj1, hsub1⟩ := sendItem_spec w it
    obtain ⟨hs2, hnd2, hdisj2⟩ := ih (sendItem w it).1
    refine ⟨?_, ?_, ?_⟩
    · show (runStream (sendItem w it).1 rest).1.streamed_chunks =
        w.streamed_chunks ++ ((sendItem w it).2 ++ (runStream (sendItem w it).1 rest).2)
      rw [hs2, hs1, List.append_assoc]
    · show ((sendItem w it).2 ++ (runStream (sendItem w it).1 rest).2).Nodup
      rw [List.nodup_append]
      refine ⟨hnd1, hnd2, ?_⟩
      intro a ha hb
      have hmem : a ∈ (sendItem w it).1.streamed_chunks := by
        rw [hs1]
        exact List.mem_append_right _ ha
      exact hdisj2 a hb hmem
    · show ∀ k ∈ (sendItem w it).2 ++ (runStream (sendItem w it).1 rest).2,
        k ∉ w.streamed_chunks
      intro k hk
      rcases List.mem_append.1 hk with h1 | h2
      · exact hdisj1 k h1
      · intro hmem
        apply hdisj2 k h2
        rw [hs1]
        exact List.mem_append_left _ hmem

end Writer

/-- **C7**: on a single unbroken stream, a run of item transmissions
never sends a chunk twice — the wire log of chunk keys has no duplicates
and avoids every chunk already marked as sent on the stream, even when
later items reference them.  After the stream is replaced, the
re-transmission consists only of chunks referenced by still-pending items
(each at most once, and none already sent on the new stream, whose sent
set starts empty). -/
theorem C7_writer_no_chunk_retransmission (w : WriterState) (its : List WriterItem) :
    ((Writer.runStream w its).2.Nodup ∧
      (∀ k ∈ (Writer.runStream w its).2, k ∉ w.streamed_chunks)) ∧
    ((Writer.reconnect w).2.Nodup ∧
      (∀ k ∈ (Writer.reconnect w).2, ∃ it ∈ w.pending_items, k ∈ it.chunk_keys) ∧
      (Writer.reconnect w).1.pending_items = w.pending_items) := by
  obtain ⟨-, hnd, hdisj⟩ := Writer.runStream_spec its w
  refine ⟨⟨hnd, hdisj⟩, List.nodup_dedup _, ?_, rfl⟩
  intro k hk
  have hk' := List.mem_dedup.1 hk
  obtain ⟨itm, hitm, hkin⟩ := List.mem_flatMap.1 hk'
  exact ⟨itm, hitm, hkin⟩

/-- Witness for C7: a concrete two-item run starting from a fresh stream
(the second item reuses chunk 2, which is sent only once). -/
theorem C7_writer_no_chunk_retransmission_witness :
    (Writer.runStream ⟨[], []⟩ [⟨[1, 2]⟩, ⟨[2, 3]⟩]).2.Nodup :=
  (C7_writer_no_chunk_retransmission ⟨[], []⟩ [⟨[1, 2]⟩, ⟨[2, 3]⟩]).1.1

/-- **C8**: on a stream failure the writer retries if and only if the
transport status is transient (`Unavailable` or `Aborted`); any other
code is latched, not retried, and surfaced (as that same code) by the
next public call (`CreateItem`, `Flush`, or `Close` with pending
items). -/
theorem C8_writer_retry_policy (latch : Option StatusCode) (c : StatusCode) :
    ((Writer.onStreamError latch c).2 = true ↔ (c = .unavailable ∨ c = .aborted)) ∧
    ((c = .unavailable ∨ c = .aborted) → (Writer.onStreamError latch c).1 = latch) ∧
    (¬(c = .unavailable ∨ c = .aborted) →
      (Writer.onStreamError latch c).2 = false ∧
      (Writer.publicCallStatus (Writer.onStreamError latch c).1).code = c) := by
  have htr : Writer.isTransient c = true ↔ (c = .unavailable ∨ c = .aborted) := by
    cases c <;> simp [Writer.isTransient]
  cases hc : Writer.isTransient c with
  | true =>
    have hcc := htr.1 hc
    unfold Writer.onStreamError
    rw [if_pos hc]
    exact ⟨⟨fun _ => hcc, fun _ => rfl⟩, fun _ => rfl, fun hn => absurd hcc hn⟩
  | false =>
    have hcc : ¬(c = .unavailable ∨ c = .aborted) := by
      intro hor
      rw [htr.2 hor] at hc
      cases hc
    unfold Writer.onStreamError
    rw [if_neg (by rw [hc]; intro hcon; cases hcon)]
    refine ⟨⟨fun hcon => ?_, fun hor => absurd hor hcc⟩,
      fun hor => absurd hor hcc, fun _ => ⟨rfl, rfl⟩⟩
    cases hcon

/-- Witness for C8: an `Internal` stream error is not retried and the
next public call surfaces `Internal`. -/
theorem C8_writer_retry_policy_witness :
    (Writer.onStreamError none .internalError).2 = false ∧
    (Writer.publicCallStatus (Writer.onStreamError none .internalError).1).code =
      .internalError :=
  (C8_writer_retry_policy none .internalError).2.2 (by intro hor; rcases hor with h | h <;> cases h)

/-- **C9**: every client-visible `WeakCellRef` accessor (`numpy`,
`shape`, `dtype`) fails with `FailedPrecondition` when the underlying
`CellRef` has expired, without dereferencing it; when the reference is
live, the accessor first upgrades it to a strong reference (`lock()`
returns the cell) and only then reads the data. -/
theorem C9_weak_cellref_guard (r : WeakCellRef) :
    (r.expired = true →
      r.numpy = .error ⟨.failedPrecondition, "Cannot access data from expired WeakCellRef"⟩ ∧
      r.shape = .error ⟨.failedPrecondition, "Cannot access data from expired WeakCellRef"⟩ ∧
      r.dtype = .error ⟨.failedPrecondition, "Cannot access data from expired WeakCellRef"⟩) ∧
    (r.expired = false →
      r.lock = some r.cell ∧
      r.numpy = .ok r.cell.tensor ∧
      r.shape = .ok (r.cell.shape.map (fun d => if d = -1 then none else some d)) ∧
      r.dtype = .ok r.cell.dtype) := by
  cases hr : r.alive <;>
    simp [WeakCellRef.expired, WeakCellRef.numpy, WeakCellRef.shape,
      WeakCellRef.dtype, WeakCellRef.lock, hr]

/-- Witness for C9: an expired reference's `numpy` accessor fails with
`FailedPrecondition`. -/
theorem C9_weak_cellref_guard_witness :
    WeakCellRef.numpy ⟨⟨0, 0, []⟩, false⟩ =
      .error ⟨.failedPrecondition, "Cannot access data from expired WeakCellRef"⟩ :=
  ((C9_weak_cellref_guard ⟨⟨0, 0, []⟩, false⟩).1 rfl).1

end Reverb
